import Mathlib

/-!
Shallow embedding of the chunking + two-stage fan-out/fan-in orchestrator of
the repository (src/agent_loop.py and src/api_server.py), together with proofs
of the spec's claims about it.

Python floats carry only additions, subtractions, `max` and comparisons here,
so they are embedded as rationals (ℚ).  The external collaborators (the LLM
extraction agent, the verification orchestrator) are modelled as function
parameters returning `Except`, since the orchestrator only observes their
value or the exception they raise.
-/

/-- Python `str.strip()`: remove leading and trailing whitespace.  Written
over the character list so that it is kernel-computable (`String.trim` of the
standard library does not reduce in the kernel). -/
def strip (s : String) : String :=
  ⟨((s.data.dropWhile Char.isWhitespace).reverse.dropWhile Char.isWhitespace).reverse⟩

/-- One entry of `transcript_raw` (a youtube-transcript-api dict with keys
`text`, `start`, `duration`; `item.get` defaults are already applied). -/
structure RawItem where
  text : String
  start : ℚ
  duration : ℚ
deriving DecidableEq

namespace AgentLoop

/-- TranscriptChunk dataclass of src/agent_loop.py (lines 30-37). -/
structure TranscriptChunk where
  chunk_id : Nat
  start_s : ℚ
  end_s : ℚ
  text : String
  video_id : String
deriving DecidableEq

/-- ClaimMinimal of src/claim_extraction/agent.py (lines 22-30). -/
structure ClaimMinimal where
  video_id : String
  start_s : ℚ
  end_s : ℚ
  claim_text : String
  speaker : String
  importance_score : ℚ
deriving DecidableEq

/-- VerifiedClaim dataclass of src/agent_loop.py (lines 40-46).
Wall-clock `processing_time_s` is not modelled and is always 0 here. -/
structure VerifiedClaim where
  claim : ClaimMinimal
  verification_result : String
  processing_time_s : ℚ
  chunk_id : Nat
deriving DecidableEq

/-- Loop body and final flush of `AgentLoop.chunk_transcript`
(src/agent_loop.py lines 92-147).  The mutable loop state is passed
explicitly: the accumulated output `chunks`, the open accumulator
(`current_start`, `current_end`, `current_chunk_text`) — `none` while
`current_start is None` — and the `chunk_id` counter `n`. -/
def chunkGo (sz : ℚ) (vid : String) :
    List RawItem → List TranscriptChunk → Option (ℚ × ℚ × List String) → Nat →
    List TranscriptChunk
  | [], chunks, none, _ => chunks
  | [], chunks, some (cs, ce, txts), n =>
      if txts = [] then chunks
      else chunks ++ [⟨n, cs, ce, String.intercalate " " txts, vid⟩]
  | it :: ts, chunks, none, n =>
      if strip it.text = "" then chunkGo sz vid ts chunks none n
      else chunkGo sz vid ts chunks
        (some (it.start, it.start + it.duration, [strip it.text])) n
  | it :: ts, chunks, some (cs, ce, txts), n =>
      if strip it.text = "" then chunkGo sz vid ts chunks (some (cs, ce, txts)) n
      else if it.start + it.duration - cs > sz ∧ txts ≠ [] then
        chunkGo sz vid ts
          (chunks ++ [⟨n, cs, ce, String.intercalate " " txts, vid⟩])
          (some (it.start, it.start + it.duration, [strip it.text])) (n + 1)
      else
        chunkGo sz vid ts chunks
          (some (cs, max ce (it.start + it.duration), txts ++ [strip it.text])) n

/-- `AgentLoop.chunk_transcript` (src/agent_loop.py lines 81-147):
`chunk_size_seconds` is `sz`, the loop starts with no open accumulator,
an empty output list and `chunk_id = 0`. -/
def chunk_transcript (sz : ℚ) (transcript_raw : List RawItem) (vid : String) :
    List TranscriptChunk :=
  chunkGo sz vid transcript_raw [] none 0

/-- Timing backfill applied to each extracted claim
(src/agent_loop.py lines 160-166): a claim whose declared `start_s` and
`end_s` are both the sentinel 0.0 receives the owning chunk's bounds;
any other claim is kept unchanged. -/
def backfill_timing (chunk : TranscriptChunk) (c : ClaimMinimal) : ClaimMinimal :=
  if c.start_s = 0 ∧ c.end_s = 0 then
    { c with start_s := chunk.start_s, end_s := chunk.end_s }
  else c

/-- `AgentLoop.extract_claims_from_chunk` (src/agent_loop.py lines 149-172).
The external call `self.extraction_agent.aextract(video_id=…, chunk=chunk.text, …)`
is the parameter `aextract` (the fixed context strings are folded into it);
an exception from it is caught and turns into an empty claim list. -/
def extract_claims_from_chunk
    (aextract : String → String → Except String (List ClaimMinimal))
    (chunk : TranscriptChunk) : List ClaimMinimal :=
  match aextract chunk.video_id chunk.text with
  | .error _ => []
  | .ok claims => claims.map (backfill_timing chunk)

/-- `AgentLoop.verify_claim` (src/agent_loop.py lines 174-196).  The external
call `self.verification_orchestrator.verify_claim(claim.claim_text, …)` is the
parameter `verify`; an exception from it is caught and the claim is kept with
the marker result `"Verification failed: " ++ e`.  Wall-clock timing is not
modelled (`processing_time_s = 0`). -/
def verify_claim (verify : String → Except String String)
    (claim : ClaimMinimal) (chunk_id : Nat) : VerifiedClaim :=
  match verify claim.claim_text with
  | .ok r => ⟨claim, r, 0, chunk_id⟩
  | .error e => ⟨claim, "Verification failed: " ++ e, 0, chunk_id⟩

/-- The flattened extraction work-list `all_claims` of
`AgentLoop.process_transcript` (src/agent_loop.py lines 242-259): extraction
results are collected in chunk order (`asyncio.gather` preserves the order of
`extraction_tasks`), pairing every claim with its chunk's `chunk_id`.  The
`isinstance(result, Exception)` branch is dead code — `extract_claims_from_chunk`
already catches every exception — and has no counterpart here. -/
def all_claims (aextract : String → String → Except String (List ClaimMinimal))
    (sz : ℚ) (t : List RawItem) (vid : String) : List (ClaimMinimal × Nat) :=
  (chunk_transcript sz t vid).flatMap fun c =>
    (extract_claims_from_chunk aextract c).map fun cl => (cl, c.chunk_id)

/-- `AgentLoop.process_transcript` (src/agent_loop.py lines 198-290): chunk,
extract in chunk order, return `[]` as soon as no claim was extracted,
otherwise verify every claim in work-list order.  The metadata/summary
context steps only feed uninterpreted strings to the collaborators and the final
`isinstance(result, Exception)` filter is dead code (`verify_claim` catches
every exception); neither has an observable counterpart here.  The
`total_claims_by_chunk` counts are only printed, never returned. -/
def process_transcript
    (aextract : String → String → Except String (List ClaimMinimal))
    (verify : String → Except String String)
    (sz : ℚ) (t : List RawItem) (vid : String) : List VerifiedClaim :=
  let cs := all_claims aextract sz t vid
  if cs.isEmpty then []
  else cs.map fun p => verify_claim verify p.1 p.2

/-- Stored configuration of an `AgentLoop` instance
(src/agent_loop.py lines 66-72). -/
structure AgentLoopConfig where
  anthropic_api_key : String
  chunk_size_seconds : ℚ
  max_parallel_extractions : Int
  max_parallel_verifications : Int
deriving DecidableEq

/-- Key resolution of `AgentLoop.__init__` (src/agent_loop.py line 66):
`anthropic_api_key or os.getenv("ANTHROPIC_API_KEY")` — the argument wins
unless it is `None` or the falsy empty string, in which case the environment
value (empty when unset) is used. -/
def resolveKey (anthropic_api_key : Option String) (env : Option String) : String :=
  match anthropic_api_key with
  | some k => if k = "" then env.getD "" else k
  | none => env.getD ""

/-- `AgentLoop.__init__` (src/agent_loop.py lines 52-79): raises
`ValueError` exactly when no non-empty API key is available, and otherwise
stores the given configuration values unexamined.  The construction of the
collaborator agents is external and not modelled. -/
def init (anthropic_api_key : Option String) (env : Option String)
    (chunk_size_seconds : ℚ)
    (max_parallel_extractions max_parallel_verifications : Int) :
    Except String AgentLoopConfig :=
  let key := resolveKey anthropic_api_key env
  if key = "" then
    .error "ANTHROPIC_API_KEY must be provided or set in environment"
  else
    .ok ⟨key, chunk_size_seconds, max_parallel_extractions,
      max_parallel_verifications⟩

end AgentLoop

namespace ApiServer

/-- Rendering of one finalized chunk of `chunk_transcript` in src/api_server.py
(lines 156-159 and 170-173): the accumulated `(line_number, start, duration, text)`
entries are rendered one per line and joined by newlines.  The f-string
`f"{line_num} [{item_start:.2f}s + {item_duration:.2f}s] {item_text}"` formats
binary floating-point values, which have no shallow embedding here, so the
line rendering itself is the uninterpreted parameter `fmt`. -/
def renderChunkLines (fmt : Nat → ℚ → ℚ → String → String)
    (items : List (Nat × ℚ × ℚ × String)) : String :=
  String.intercalate "\n" (items.map fun e => fmt e.1 e.2.1 e.2.2.1 e.2.2.2)

/-- Loop body and final flush of `chunk_transcript` in src/api_server.py
(lines 125-175).  The mutable state is the output `chunks`, the accumulated
`current_chunk_items`, `current_start` (`none` while `None`) and the global
`line_number` counter, which is incremented for every fragment whose stripped
text is non-empty. -/
def chunkGo (fmt : Nat → ℚ → ℚ → String → String) (sz : ℚ) :
    List RawItem → List String → List (Nat × ℚ × ℚ × String) → Option ℚ → Nat →
    List String
  | [], chunks, items, _, _ =>
      if items = [] then chunks else chunks ++ [renderChunkLines fmt items]
  | it :: ts, chunks, items, cst, ln =>
      if strip it.text = "" then chunkGo fmt sz ts chunks items cst ln
      else
        match cst with
        | none =>
            chunkGo fmt sz ts chunks
              [(ln + 1, it.start, it.duration, strip it.text)] (some it.start) (ln + 1)
        | some cs =>
            if it.start + it.duration - cs > sz ∧ items ≠ [] then
              chunkGo fmt sz ts (chunks ++ [renderChunkLines fmt items])
                [(ln + 1, it.start, it.duration, strip it.text)] (some it.start) (ln + 1)
            else
              chunkGo fmt sz ts chunks
                (items ++ [(ln + 1, it.start, it.duration, strip it.text)]) cst (ln + 1)

/-- `chunk_transcript` of src/api_server.py (lines 125-175): returns the
rendered chunk strings. -/
def chunk_transcript (fmt : Nat → ℚ → ℚ → String → String) (sz : ℚ)
    (transcript : List RawItem) : List String :=
  chunkGo fmt sz transcript [] [] none 0

end ApiServer

/-! Specification-side view of the windowing policy, used to state
well-formedness (C5) and the refinement between the two chunkers (C10):
the same boundary recursion as the implementations, but collecting the
grouped fragments themselves instead of rendered chunks. -/

/-- Derived end time of a fragment (`end = start + duration`). -/
def fragEnd (f : RawItem) : ℚ := f.start + f.duration

/-- Start bound of a fragment group: the first fragment's start. -/
def groupStart : List RawItem → ℚ
  | [] => 0
  | it :: _ => it.start

/-- End bound of a fragment group: the running maximum of the fragments'
end times, seeded with the first fragment's end. -/
def groupEnd : List RawItem → ℚ
  | [] => 0
  | it :: ts => ts.foldl (fun m f => max m (fragEnd f)) (fragEnd it)

/-- Text of a fragment group as the agent loop renders it: the stripped
fragment texts joined by single spaces. -/
def groupText (g : List RawItem) : String :=
  String.intercalate " " (g.map fun f => strip f.text)

/-- The chunk the agent loop builds from the `n`-th fragment group. -/
def renderedChunk (vid : String) (n : Nat) (g : List RawItem) :
    AgentLoop.TranscriptChunk :=
  ⟨n, groupStart g, groupEnd g, groupText g, vid⟩

/-- Render a list of fragment groups to chunks with sequential ids from `n`. -/
def renderAll (vid : String) : Nat → List (List RawItem) → List AgentLoop.TranscriptChunk
  | _, [] => []
  | n, g :: gs => renderedChunk vid n g :: renderAll vid (n + 1) gs

/-- The boundary recursion shared by both chunkers, collecting the fragment
groups: state is `none`, or the open group with its anchoring start time. -/
def windowGroupsGo (sz : ℚ) : List RawItem → Option (ℚ × List RawItem) →
    List (List RawItem)
  | [], none => []
  | [], some (_, g) => [g]
  | it :: ts, none =>
      if strip it.text = "" then windowGroupsGo sz ts none
      else windowGroupsGo sz ts (some (it.start, [it]))
  | it :: ts, some (cs, g) =>
      if strip it.text = "" then windowGroupsGo sz ts (some (cs, g))
      else if it.start + it.duration - cs > sz ∧ g ≠ [] then
        g :: windowGroupsGo sz ts (some (it.start, [it]))
      else windowGroupsGo sz ts (some (cs, g ++ [it]))

/-- Fragment groups of a whole transcript. -/
def windowGroups (sz : ℚ) (t : List RawItem) : List (List RawItem) :=
  windowGroupsGo sz t none

/-- The server chunker's groups: same boundary recursion, but each kept
fragment is annotated with its global line number and stripped text, as in
`current_chunk_items` of src/api_server.py. -/
def serverGroupsGo (sz : ℚ) : List RawItem → Option (ℚ × List (Nat × ℚ × ℚ × String)) →
    Nat → List (List (Nat × ℚ × ℚ × String))
  | [], none, _ => []
  | [], some (_, g), _ => [g]
  | it :: ts, none, ln =>
      if strip it.text = "" then serverGroupsGo sz ts none ln
      else serverGroupsGo sz ts
        (some (it.start, [(ln + 1, it.start, it.duration, strip it.text)])) (ln + 1)
  | it :: ts, some (cs, g), ln =>
      if strip it.text = "" then serverGroupsGo sz ts (some (cs, g)) ln
      else if it.start + it.duration - cs > sz ∧ g ≠ [] then
        g :: serverGroupsGo sz ts
          (some (it.start, [(ln + 1, it.start, it.duration, strip it.text)])) (ln + 1)
      else serverGroupsGo sz ts
        (some (cs, g ++ [(ln + 1, it.start, it.duration, strip it.text)])) (ln + 1)

/-- Line-annotated fragment groups of a whole transcript. -/
def serverGroups (sz : ℚ) (t : List RawItem) : List (List (Nat × ℚ × ℚ × String)) :=
  serverGroupsGo sz t none 0

/-- Projection of a server group entry onto the boundary-relevant data
(start, duration, stripped text), dropping the line number. -/
def entryData (e : Nat × ℚ × ℚ × String) : ℚ × ℚ × String :=
  (e.2.1, e.2.2.1, e.2.2.2)

/-- The same projection of a raw fragment. -/
def fragData (f : RawItem) : ℚ × ℚ × String :=
  (f.start, f.duration, strip f.text)

/-- Relation between the agent chunker's open accumulator
(`current_start`, `current_end`, `current_chunk_text`) and the open fragment
group it denotes. -/
def StRel : Option (ℚ × ℚ × List String) → Option (ℚ × List RawItem) → Prop
  | none, none => True
  | some (cs, ce, txts), some (cs', g) =>
      cs = cs' ∧ g ≠ [] ∧ cs' = groupStart g ∧ ce = groupEnd g ∧
      txts = g.map fun f => strip f.text
  | _, _ => False

/-- Relation between the server chunker's open accumulator
(`current_chunk_items`, `current_start`) and the open line-annotated group. -/
def SrvRel : List (Nat × ℚ × ℚ × String) → Option ℚ →
    Option (ℚ × List (Nat × ℚ × ℚ × String)) → Prop
  | items, none, none => items = []
  | items, some cs, some (cs', g) => cs = cs' ∧ items = g ∧ g ≠ []
  | _, _, _ => False

/-- Relation between a line-annotated group of the server chunker and a raw
fragment group of the common boundary recursion: same anchoring start and the
same (start, duration, stripped text) data in the same order. -/
def GrpRel : Option (ℚ × List (Nat × ℚ × ℚ × String)) → Option (ℚ × List RawItem) → Prop
  | none, none => True
  | some (cs, g), some (cs', g') => cs = cs' ∧ g.map entryData = g'.map fragData
  | _, _ => False

/-! Model of `asyncio.gather`: tasks complete in an arbitrary order (the
schedule), each completion pairing the task's submission index with its
result; `gather` places result `i` into slot `i` of the returned list, so
the output order is the submission order, not the completion order. -/

/-- Completion events of a batch of (deterministic) task results under a
completion schedule: the schedule entries that name a real task index yield
that task's result, in completion order. -/
def completionEvents (tasks : List α) (sched : List Nat) : List (Nat × α) :=
  sched.filterMap fun j => (tasks[j]?).map fun v => (j, v)

/-- Reassembly by submission index, as `asyncio.gather` does: slot `i` of the
output holds the completed result of task `i`, whenever it completed. -/
def gatherAssemble (tasks : List α) (sched : List Nat) : List (Option α) :=
  (List.range tasks.length).map fun i =>
    ((completionEvents tasks sched).find? fun p => p.1 == i).map fun p => p.2

/-! Concrete scenario data used to instantiate the proved properties. -/

/-- Scenario of the split-policy claim: 10 fragments of 40s each,
laid out back to back. -/
def tenFragments : List RawItem :=
  [⟨"w", 0, 40⟩, ⟨"w", 40, 40⟩, ⟨"w", 80, 40⟩, ⟨"w", 120, 40⟩, ⟨"w", 160, 40⟩,
   ⟨"w", 200, 40⟩, ⟨"w", 240, 40⟩, ⟨"w", 280, 40⟩, ⟨"w", 320, 40⟩, ⟨"w", 360, 40⟩]

/-- Two-fragment transcript that fits in a single 30s chunk. -/
def pizzaFragments : List RawItem :=
  [⟨"I love pizza", 0, 5⟩, ⟨"Unemployment is 4%", 5, 5⟩]

/-- Five fragments far enough apart that `target_span_s = 30` yields five
chunks with texts `t0` … `t4`. -/
def fiveFragments : List RawItem :=
  [⟨"t0", 0, 40⟩, ⟨"t1", 40, 40⟩, ⟨"t2", 80, 40⟩, ⟨"t3", 120, 40⟩, ⟨"t4", 160, 40⟩]

/-- Two fragments yielding two chunks with texts `a` and `b`. -/
def twoFragments : List RawItem :=
  [⟨"a", 0, 40⟩, ⟨"b", 40, 40⟩]

/-- A sample claim with non-sentinel timing carrying the given text. -/
def sampleClaim (txt : String) : AgentLoop.ClaimMinimal :=
  ⟨"v", 1, 2, txt, "speaker", 1⟩

/-- Extractor that throws for the chunk whose text is `t2` and yields one
claim for every other chunk. -/
def extractorFailT2 : String → String → Except String (List AgentLoop.ClaimMinimal) :=
  fun _ txt => if txt = "t2" then .error "boom" else .ok [sampleClaim txt]

/-- Extractor that throws for the chunk whose text is `b`. -/
def extractorFailB : String → String → Except String (List AgentLoop.ClaimMinimal) :=
  fun _ txt => if txt = "b" then .error "crash" else .ok [sampleClaim txt]

/-- Extractor that returns no claims for the chunk whose text is `b`. -/
def extractorEmptyB : String → String → Except String (List AgentLoop.ClaimMinimal) :=
  fun _ txt => if txt = "b" then .ok [] else .ok [sampleClaim txt]

/-- Extractor that yields four claims `c0` … `c3` for every chunk. -/
def extractorFour : String → String → Except String (List AgentLoop.ClaimMinimal) :=
  fun _ _ => .ok [sampleClaim "c0", sampleClaim "c1", sampleClaim "c2", sampleClaim "c3"]

/-- Extractor that yields no claims at all. -/
def extractorNone : String → String → Except String (List AgentLoop.ClaimMinimal) :=
  fun _ _ => .ok []

/-- A claim carrying the sentinel "unknown" timing `start_s = end_s = 0`. -/
def sentinelClaim : AgentLoop.ClaimMinimal :=
  ⟨"v", 0, 0, "sentinel claim", "speaker", 1⟩

/-- Extractor that yields one sentinel-timed claim and one normally-timed
claim for every chunk. -/
def extractorMixed : String → String → Except String (List AgentLoop.ClaimMinimal) :=
  fun _ _ => .ok [sentinelClaim, sampleClaim "normal"]

/-- Verifier that succeeds on every claim text. -/
def verifierOk : String → Except String String :=
  fun s => .ok ("verdict for " ++ s)

/-- Verifier that throws for the odd-indexed claim texts `c1` and `c3`. -/
def verifierOddFails : String → Except String String :=
  fun s => if s = "c1" ∨ s = "c3" then .error ("cannot check " ++ s)
    else .ok ("verdict for " ++ s)

/-- Decidable form of "every fragment has a non-negative duration". -/
def nonnegDurations (t : List RawItem) : Bool :=
  t.all fun f => decide (0 ≤ f.duration)

/-- Decidable form of "the schedule contains every index below `n`". -/
def covers (sched : List Nat) (n : Nat) : Bool :=
  (List.range n).all fun i => sched.contains i

/-! Helper lemmas about groups. -/

theorem groupStart_append (g : List RawItem) (f : RawItem) (h : g ≠ []) :
    groupStart (g ++ [f]) = groupStart g := by
  cases g with
  | nil => exact absurd rfl h
  | cons a t => rfl

theorem groupEnd_append (g : List RawItem) (f : RawItem) (h : g ≠ []) :
    groupEnd (g ++ [f]) = max (groupEnd g) (fragEnd f) := by
  cases g with
  | nil => exact absurd rfl h
  | cons a t => simp [groupEnd, List.foldl_append]

/-- Invariant of the agent chunker's loop: with the accumulator denoting the
open group `gst`, the loop emits exactly the chunks already produced followed
by the renderings of the remaining fragment groups, with sequential ids
continuing at `n`. -/
theorem chunkGo_renders (sz : ℚ) (vid : String) (ts : List RawItem) :
    ∀ (chunks : List AgentLoop.TranscriptChunk) st gst (n : Nat), StRel st gst →
      AgentLoop.chunkGo sz vid ts chunks st n
        = chunks ++ renderAll vid n (windowGroupsGo sz ts gst) := by
  induction ts with
  | nil =>
      intro chunks st gst n h
      match st, gst, h with
      | none, none, _ =>
          simp [AgentLoop.chunkGo, windowGroupsGo, renderAll]
      | some (cs, ce, txts), some (cs', g), ⟨h1, h2, h3, h4, h5⟩ =>
          have htxts : txts ≠ [] := by
            subst h5
            exact fun hmap => h2 (List.map_eq_nil_iff.mp hmap)
          simp [AgentLoop.chunkGo, windowGroupsGo, renderAll, htxts, h2,
            renderedChunk, groupText, h1, h3, h4, h5]
  | cons it ts ih =>
      intro chunks st gst n h
      by_cases he : strip it.text = ""
      · match st, gst, h with
        | none, none, _ =>
            simp only [AgentLoop.chunkGo, windowGroupsGo, if_pos he]
            exact ih chunks none none n trivial
        | some (cs, ce, txts), some (cs', g), hrel =>
            simp only [AgentLoop.chunkGo, windowGroupsGo, if_pos he]
            exact ih chunks (some (cs, ce, txts)) (some (cs', g)) n hrel
      · match st, gst, h with
        | none, none, _ =>
            simp only [AgentLoop.chunkGo, windowGroupsGo, if_neg he]
            exact ih chunks (some (it.start, it.start + it.duration, [strip it.text]))
              (some (it.start, [it])) n
              ⟨rfl, by simp, rfl, by simp [groupEnd, fragEnd], by simp⟩
        | some (cs, ce, txts), some (cs', g), ⟨h1, h2, h3, h4, h5⟩ =>
            have htxts : txts ≠ [] := by
              subst h5
              exact fun hmap => h2 (List.map_eq_nil_iff.mp hmap)
            by_cases hc : it.start + it.duration - cs' > sz
            · have hcl : it.start + it.duration - cs > sz ∧ txts ≠ [] := ⟨h1 ▸ hc, htxts⟩
              have hcr : it.start + it.duration - cs' > sz ∧ g ≠ [] := ⟨hc, h2⟩
              simp only [AgentLoop.chunkGo, windowGroupsGo, if_neg he, if_pos hcl, if_pos hcr]
              have hrec := ih (chunks ++ [⟨n, cs, ce, String.intercalate " " txts, vid⟩])
                (some (it.start, it.start + it.duration, [strip it.text]))
                (some (it.start, [it])) (n + 1)
                ⟨rfl, by simp, rfl, by simp [groupEnd, fragEnd], by simp⟩
              rw [hrec]
              simp [renderAll, renderedChunk, groupText, h1, h3, h4, h5]
            · have hcl : ¬(it.start + it.duration - cs > sz ∧ txts ≠ []) :=
                fun hx => hc (h1 ▸ hx.1)
              have hcr : ¬(it.start + it.duration - cs' > sz ∧ g ≠ []) :=
                fun hx => hc hx.1
              simp only [AgentLoop.chunkGo, windowGroupsGo, if_neg he, if_neg hcl, if_neg hcr]
              exact ih chunks
                (some (cs, max ce (it.start + it.duration), txts ++ [strip it.text]))
                (some (cs', g ++ [it])) n
                ⟨h1, by simp, by rw [groupStart_append g it h2, h3],
                 by rw [groupEnd_append g it h2, h4, fragEnd],
                 by simp [h5]⟩

/-- The agent chunker is the rendering of the fragment groups with
sequential ids from 0. -/
theorem chunk_transcript_eq_renderAll (sz : ℚ) (t : List RawItem) (vid : String) :
    AgentLoop.chunk_transcript sz t vid = renderAll vid 0 (windowGroups sz t) := by
  simpa using chunkGo_renders sz vid t [] none none 0 trivial

/-! Facts about `renderAll`. -/

theorem renderAll_length (vid : String) :
    ∀ (gs : List (List RawItem)) (n : Nat), (renderAll vid n gs).length = gs.length := by
  intro gs
  induction gs with
  | nil => intro n; rfl
  | cons g gs ih => intro n; simp [renderAll, ih]

theorem mem_renderAll (vid : String) :
    ∀ (gs : List (List RawItem)) (n : Nat) (ch : AgentLoop.TranscriptChunk),
      ch ∈ renderAll vid n gs → ∃ g ∈ gs, ch = renderedChunk vid ch.chunk_id g := by
  intro gs
  induction gs with
  | nil => intro n ch h; simp [renderAll] at h
  | cons g gs ih =>
      intro n ch h
      rcases (List.mem_cons).mp h with h | h
      · exact ⟨g, List.mem_cons_self g gs, by subst h; rfl⟩
      · rcases ih (n + 1) ch h with ⟨g', hg', he⟩
        exact ⟨g', List.mem_cons_of_mem g hg', he⟩

theorem renderAll_id_ge (vid : String) :
    ∀ (gs : List (List RawItem)) (n : Nat) (ch : AgentLoop.TranscriptChunk),
      ch ∈ renderAll vid n gs → n ≤ ch.chunk_id := by
  intro gs
  induction gs with
  | nil => intro n ch h; simp [renderAll] at h
  | cons g gs ih =>
      intro n ch h
      rcases (List.mem_cons).mp h with h | h
      · subst h; exact le_refl n
      · exact le_trans (Nat.le_succ n) (ih (n + 1) ch h)

theorem renderAll_pairwise (vid : String) :
    ∀ (gs : List (List RawItem)) (n : Nat),
      (renderAll vid n gs).Pairwise fun a b => a.chunk_id ≤ b.chunk_id := by
  intro gs
  induction gs with
  | nil => intro n; exact List.Pairwise.nil
  | cons g gs ih =>
      intro n
      refine List.Pairwise.cons ?_ (ih (n + 1))
      intro b hb
      exact le_trans (Nat.le_succ n) (renderAll_id_ge vid gs (n + 1) b hb)

theorem renderAll_map_chunkId (vid : String) :
    ∀ (gs : List (List RawItem)) (n : Nat),
      (renderAll vid n gs).map (fun c => c.chunk_id) = List.range' n gs.length := by
  intro gs
  induction gs with
  | nil => intro n; rfl
  | cons g gs ih => intro n; simp [renderAll, renderedChunk, ih, List.range'_succ]

/-! Well-formedness of the fragment groups. -/

theorem windowGroupsGo_wf (sz : ℚ) (Q : RawItem → Prop) :
    ∀ (ts : List RawItem), (∀ f ∈ ts, strip f.text ≠ "" → Q f) →
    ∀ gst, (gst = none ∨ ∃ cs g0, gst = some (cs, g0) ∧ g0 ≠ [] ∧ ∀ f ∈ g0, Q f) →
    ∀ g ∈ windowGroupsGo sz ts gst, g ≠ [] ∧ ∀ f ∈ g, Q f := by
  intro ts
  induction ts with
  | nil =>
      intro _ gst hgst g hg
      rcases hgst with rfl | ⟨cs, g0, rfl, hne, hq⟩
      · simp [windowGroupsGo] at hg
      · simp [windowGroupsGo] at hg
        subst hg
        exact ⟨hne, hq⟩
  | cons it ts ih =>
      intro hts gst hgst g hg
      have hts' : ∀ f ∈ ts, strip f.text ≠ "" → Q f :=
        fun f hf => hts f (List.mem_cons_of_mem it hf)
      have hqit : strip it.text ≠ "" → Q it := hts it (List.mem_cons_self it ts)
      by_cases he : strip it.text = ""
      · rcases hgst with rfl | ⟨cs, g0, rfl, hne, hq⟩
        · simp only [windowGroupsGo, if_pos he] at hg
          exact ih hts' none (Or.inl rfl) g hg
        · simp only [windowGroupsGo, if_pos he] at hg
          exact ih hts' (some (cs, g0)) (Or.inr ⟨cs, g0, rfl, hne, hq⟩) g hg
      · rcases hgst with rfl | ⟨cs, g0, rfl, hne, hq⟩
        · simp only [windowGroupsGo, if_neg he] at hg
          refine ih hts' (some (it.start, [it])) (Or.inr ⟨it.start, [it], rfl, by simp, ?_⟩) g hg
          intro f hf
          rcases List.mem_singleton.mp hf with rfl
          exact hqit he
        · by_cases hc : it.start + it.duration - cs > sz ∧ g0 ≠ []
          · simp only [windowGroupsGo, if_neg he, if_pos hc] at hg
            rcases (List.mem_cons).mp hg with rfl | hg
            · exact ⟨hne, hq⟩
            · refine ih hts' (some (it.start, [it]))
                (Or.inr ⟨it.start, [it], rfl, by simp, ?_⟩) g hg
              intro f hf
              rcases List.mem_singleton.mp hf with rfl
              exact hqit he
          · simp only [windowGroupsGo, if_neg he, if_neg hc] at hg
            refine ih hts' (some (cs, g0 ++ [it]))
              (Or.inr ⟨cs, g0 ++ [it], rfl, by simp, ?_⟩) g hg
            intro f hf
            rcases List.mem_append.mp hf with hf | hf
            · exact hq f hf
            · rcases List.mem_singleton.mp hf with rfl
              exact hqit he

theorem windowGroups_wf (sz : ℚ) (t : List RawItem) :
    ∀ g ∈ windowGroups sz t, g ≠ [] ∧ ∀ f ∈ g, f ∈ t ∧ strip f.text ≠ "" := by
  exact windowGroupsGo_wf sz (fun f => f ∈ t ∧ strip f.text ≠ "") t
    (fun f hf hs => ⟨hf, hs⟩) none (Or.inl rfl)

theorem le_foldl_maxEnd : ∀ (l : List RawItem) (a : ℚ),
    a ≤ l.foldl (fun m f => max m (fragEnd f)) a := by
  intro l
  induction l with
  | nil => intro a; exact le_refl a
  | cons f l ih =>
      intro a
      exact le_trans (le_max_left a (fragEnd f)) (ih (max a (fragEnd f)))

theorem groupStart_le_groupEnd (g : List RawItem) (hne : g ≠ [])
    (hdur : ∀ f ∈ g, 0 ≤ f.duration) : groupStart g ≤ groupEnd g := by
  cases g with
  | nil => exact absurd rfl hne
  | cons f l =>
      have h1 : f.start ≤ fragEnd f := by
        have := hdur f (List.mem_cons_self f l)
        simp only [fragEnd]
        linarith
      exact le_trans h1 (le_foldl_maxEnd l (fragEnd f))

/-! Invariants of the server chunker. -/

/-- Invariant of the server chunker's loop: it emits the chunks already
produced followed by the renderings of the remaining line-annotated groups. -/
theorem serverChunkGo_renders (fmt : Nat → ℚ → ℚ → String → String) (sz : ℚ)
    (ts : List RawItem) :
    ∀ chunks items cst gst (ln : Nat), SrvRel items cst gst →
      ApiServer.chunkGo fmt sz ts chunks items cst ln
        = chunks ++ (serverGroupsGo sz ts gst ln).map (ApiServer.renderChunkLines fmt) := by
  induction ts with
  | nil =>
      intro chunks items cst gst ln h
      match items, cst, gst, h with
      | items, none, none, h =>
          subst h
          simp [ApiServer.chunkGo, serverGroupsGo]
      | items, some cs, some (cs', g), ⟨h1, h2, h3⟩ =>
          subst h2
          simp [ApiServer.chunkGo, serverGroupsGo, h3]
  | cons it ts ih =>
      intro chunks items cst gst ln h
      by_cases he : strip it.text = ""
      · match items, cst, gst, h with
        | items, none, none, h =>
            subst h
            simp only [ApiServer.chunkGo, serverGroupsGo, if_pos he]
            exact ih chunks [] none none ln rfl
        | items, some cs, some (cs', g), ⟨h1, h2, h3⟩ =>
            simp only [ApiServer.chunkGo, serverGroupsGo, if_pos he]
            exact ih chunks items (some cs) (some (cs', g)) ln ⟨h1, h2, h3⟩
      · match items, cst, gst, h with
        | items, none, none, h =>
            subst h
            simp only [ApiServer.chunkGo, serverGroupsGo, if_neg he]
            exact ih chunks [(ln + 1, it.start, it.duration, strip it.text)]
              (some it.start) (some (it.start, [(ln + 1, it.start, it.duration, strip it.text)]))
              (ln + 1) ⟨rfl, rfl, by simp⟩
        | items, some cs, some (cs', g), ⟨h1, h2, h3⟩ =>
            subst h1; subst h2
            by_cases hc : it.start + it.duration - cs > sz ∧ items ≠ []
            · simp only [ApiServer.chunkGo, serverGroupsGo, if_neg he, if_pos hc]
              have hrec := ih (chunks ++ [ApiServer.renderChunkLines fmt items])
                [(ln + 1, it.start, it.duration, strip it.text)] (some it.start)
                (some (it.start, [(ln + 1, it.start, it.duration, strip it.text)]))
                (ln + 1) ⟨rfl, rfl, by simp⟩
              rw [hrec]
              simp
            · simp only [ApiServer.chunkGo, serverGroupsGo, if_neg he, if_neg hc]
              exact ih chunks (items ++ [(ln + 1, it.start, it.duration, strip it.text)])
                (some cs) (some (cs, items ++ [(ln + 1, it.start, it.duration, strip it.text)]))
                (ln + 1) ⟨rfl, rfl, by simp⟩

/-- The server chunker is the rendering of its line-annotated groups. -/
theorem server_chunk_transcript_eq (fmt : Nat → ℚ → ℚ → String → String)
    (sz : ℚ) (t : List RawItem) :
    ApiServer.chunk_transcript fmt sz t
      = (serverGroups sz t).map (ApiServer.renderChunkLines fmt) := by
  simpa using serverChunkGo_renders fmt sz t [] [] none none 0 rfl

/-- Both boundary recursions produce the same groups of
(start, duration, stripped text) fragment data. -/
theorem serverGroupsGo_data (sz : ℚ) (ts : List RawItem) :
    ∀ gst gst' (ln : Nat), GrpRel gst gst' →
      (serverGroupsGo sz ts gst ln).map (List.map entryData)
        = (windowGroupsGo sz ts gst').map (List.map fragData) := by
  induction ts with
  | nil =>
      intro gst gst' ln h
      match gst, gst', h with
      | none, none, _ => rfl
      | some (cs, g), some (cs', g'), ⟨h1, h2⟩ =>
          simp [serverGroupsGo, windowGroupsGo, h2]
  | cons it ts ih =>
      intro gst gst' ln h
      by_cases he : strip it.text = ""
      · match gst, gst', h with
        | none, none, _ =>
            simp only [serverGroupsGo, windowGroupsGo, if_pos he]
            exact ih none none ln trivial
        | some (cs, g), some (cs', g'), ⟨h1, h2⟩ =>
            simp only [serverGroupsGo, windowGroupsGo, if_pos he]
            exact ih (some (cs, g)) (some (cs', g')) ln ⟨h1, h2⟩
      · match gst, gst', h with
        | none, none, _ =>
            simp only [serverGroupsGo, windowGroupsGo, if_neg he]
            exact ih (some (it.start, [(ln + 1, it.start, it.duration, strip it.text)]))
              (some (it.start, [it])) (ln + 1) ⟨rfl, by simp [entryData, fragData]⟩
        | some (cs, g), some (cs', g'), ⟨h1, h2⟩ =>
            subst h1
            have hne : g = [] ↔ g' = [] := by
              constructor
              · intro hg; subst hg
                simpa using (List.map_eq_nil_iff.mp h2.symm)
              · intro hg; subst hg
                simpa using (List.map_eq_nil_iff.mp h2)
            by_cases hc : it.start + it.duration - cs > sz ∧ g ≠ []
            · have hc' : it.start + it.duration - cs > sz ∧ g' ≠ [] :=
                ⟨hc.1, fun hg => hc.2 (hne.mpr hg)⟩
              simp only [serverGroupsGo, windowGroupsGo, if_neg he, if_pos hc, if_pos hc']
              simp only [List.map_cons]
              rw [ih (some (it.start, [(ln + 1, it.start, it.duration, strip it.text)]))
                (some (it.start, [it])) (ln + 1) ⟨rfl, by simp [entryData, fragData]⟩, h2]
            · have hc' : ¬(it.start + it.duration - cs > sz ∧ g' ≠ []) :=
                fun hx => hc ⟨hx.1, fun hg => hx.2 (hne.mp hg)⟩
              simp only [serverGroupsGo, windowGroupsGo, if_neg he, if_neg hc, if_neg hc']
              exact ih (some (cs, g ++ [(ln + 1, it.start, it.duration, strip it.text)]))
                (some (cs, g' ++ [it])) (ln + 1)
                ⟨rfl, by simp [h2, entryData, fragData]⟩

/-- Group-data equality for whole transcripts. -/
theorem serverGroups_data (sz : ℚ) (t : List RawItem) :
    (serverGroups sz t).map (List.map entryData)
      = (windowGroups sz t).map (List.map fragData) :=
  serverGroupsGo_data sz t none none 0 trivial

/-! Facts about the orchestrator. -/

/-- The returned value of `process_transcript` is exactly the flat list of
verified claims, one per extracted claim, in work-list order (the
`if not all_claims` early return coincides with the map on the empty list). -/
theorem process_eq_map_all_claims
    (aextract : String → String → Except String (List AgentLoop.ClaimMinimal))
    (verify : String → Except String String) (sz : ℚ) (t : List RawItem) (vid : String) :
    AgentLoop.process_transcript aextract verify sz t vid
      = (AgentLoop.all_claims aextract sz t vid).map
          fun p => AgentLoop.verify_claim verify p.1 p.2 := by
  unfold AgentLoop.process_transcript
  by_cases h : (AgentLoop.all_claims aextract sz t vid).isEmpty
  · rw [if_pos h]
    rw [List.isEmpty_iff] at h
    rw [h]
    rfl
  · rw [if_neg h]

theorem pairwise_of_mem {α : Type} {R : α → α → Prop} :
    ∀ (l : List α), (∀ a ∈ l, ∀ b ∈ l, R a b) → l.Pairwise R := by
  intro l
  induction l with
  | nil => intro _; exact List.Pairwise.nil
  | cons a l ih =>
      intro h
      refine List.Pairwise.cons ?_ (ih ?_)
      · intro b hb
        exact h a (List.mem_cons_self a l) b (List.mem_cons_of_mem a hb)
      · intro x hx y hy
        exact h x (List.mem_cons_of_mem a hx) y (List.mem_cons_of_mem a hy)

theorem pairwise_flatMap (l : List AgentLoop.TranscriptChunk)
    (f : AgentLoop.TranscriptChunk → List (AgentLoop.ClaimMinimal × Nat))
    (hf : ∀ c p, p ∈ f c → p.2 = c.chunk_id)
    (hl : l.Pairwise fun a b => a.chunk_id ≤ b.chunk_id) :
    (l.flatMap f).Pairwise fun p q => p.2 ≤ q.2 := by
  induction l with
  | nil => simp
  | cons c l ih =>
      rw [List.pairwise_cons] at hl
      rw [List.flatMap_cons]
      refine List.pairwise_append.mpr ⟨?_, ih hl.2, ?_⟩
      · refine pairwise_of_mem (f c) ?_
        intro p hp q hq
        rw [hf c p hp, hf c q hq]
      · intro p hp q hq
        rcases List.mem_flatMap.mp hq with ⟨c', hc', hq'⟩
        rw [hf c p hp, hf c' q hq']
        exact hl.1 c' hc'

/-- The extraction work-list is ordered by chunk id. -/
theorem all_claims_pairwise
    (aextract : String → String → Except String (List AgentLoop.ClaimMinimal))
    (sz : ℚ) (t : List RawItem) (vid : String) :
    (AgentLoop.all_claims aextract sz t vid).Pairwise fun p q => p.2 ≤ q.2 := by
  unfold AgentLoop.all_claims
  refine pairwise_flatMap _ _ ?_ ?_
  · intro c p hp
    rcases List.mem_map.mp hp with ⟨cl, _, rfl⟩
    rfl
  · rw [chunk_transcript_eq_renderAll]
    exact renderAll_pairwise vid (windowGroups sz t) 0

/-! Facts about the gather model. -/

theorem find_completionEvents {α : Type} (tasks : List α) :
    ∀ (sched : List Nat) (i : Nat) (v : α), i ∈ sched → tasks[i]? = some v →
      (completionEvents tasks sched).find? (fun p => p.1 == i) = some (i, v) := by
  intro sched
  induction sched with
  | nil => intro i v h _; simp at h
  | cons j sched ih =>
      intro i v hmem hv
      by_cases hji : j = i
      · subst hji
        simp [completionEvents, hv, List.find?]
      · cases hj : tasks[j]? with
        | none =>
            have : completionEvents tasks (j :: sched) = completionEvents tasks sched := by
              simp [completionEvents, hj]
            rw [this]
            rcases List.mem_cons.mp hmem with h | h
            · exact absurd h.symm hji
            · exact ih i v h hv
        | some w =>
            have hce : completionEvents tasks (j :: sched)
                = (j, w) :: completionEvents tasks sched := by
              simp [completionEvents, hj]
            rw [hce]
            rw [List.find?_cons_of_neg _ (by simpa using hji)]
            rcases List.mem_cons.mp hmem with h | h
            · exact absurd h.symm hji
            · exact ih i v h hv

/-- With every submitted index completing, `gather` reassembles exactly the
submission-order results. -/
theorem gatherAssemble_eq {α : Type} (tasks : List α) (sched : List Nat)
    (hcov : ∀ i, i < tasks.length → i ∈ sched) :
    gatherAssemble tasks sched = tasks.map some := by
  refine List.ext_getElem? ?_
  intro i
  by_cases hi : i < tasks.length
  · have hleft : (gatherAssemble tasks sched)[i]?
        = some ((((completionEvents tasks sched).find? fun p => p.1 == i).map fun p => p.2)) := by
      unfold gatherAssemble
      rw [List.getElem?_map]
      simp [List.getElem?_range hi]
    rw [hleft, List.getElem?_map, List.getElem?_eq_getElem hi]
    rw [find_completionEvents tasks sched i tasks[i] (hcov i hi)
      (List.getElem?_eq_getElem hi)]
    rfl
  · have h1 : (gatherAssemble tasks sched).length = tasks.length := by
      unfold gatherAssemble
      simp
    rw [List.getElem?_eq_none (by rw [h1]; omega),
      List.getElem?_eq_none (by rw [List.length_map]; omega)]

/-! The claims. -/

/-- C1: Windower split policy.  On a fragment with non-empty stripped text and
an open accumulator, the agent chunker closes the chunk exactly when the
accumulator is non-empty and the prospective duration
`fragment.start_s + fragment.duration_s - current_start` strictly exceeds the
target span; the first fragment placed into a chunk (open accumulator `none`)
is accepted with no check of its own duration.  In particular, 10 back-to-back
fragments of 40s each with a 30s target span produce exactly 10 chunks, each
holding a single fragment. -/
theorem windower_split_policy :
    (∀ (sz : ℚ) (vid : String) (f : RawItem) (ts : List RawItem)
        (chunks : List AgentLoop.TranscriptChunk) (cs ce : ℚ) (txts : List String)
        (n : Nat),
      (AgentLoop.chunkGo sz vid (f :: ts) chunks (some (cs, ce, txts)) n =
        if strip f.text = "" then
          AgentLoop.chunkGo sz vid ts chunks (some (cs, ce, txts)) n
        else if f.start + f.duration - cs > sz ∧ txts ≠ [] then
          AgentLoop.chunkGo sz vid ts
            (chunks ++ [⟨n, cs, ce, String.intercalate " " txts, vid⟩])
            (some (f.start, f.start + f.duration, [strip f.text])) (n + 1)
        else
          AgentLoop.chunkGo sz vid ts chunks
            (some (cs, max ce (f.start + f.duration), txts ++ [strip f.text])) n)
      ∧ (AgentLoop.chunkGo sz vid (f :: ts) chunks none n =
          if strip f.text = "" then AgentLoop.chunkGo sz vid ts chunks none n
          else AgentLoop.chunkGo sz vid ts chunks
            (some (f.start, f.start + f.duration, [strip f.text])) n))
    ∧ AgentLoop.chunk_transcript 30 tenFragments "v" =
        [⟨0, 0, 40, "w", "v"⟩, ⟨1, 40, 80, "w", "v"⟩, ⟨2, 80, 120, "w", "v"⟩,
         ⟨3, 120, 160, "w", "v"⟩, ⟨4, 160, 200, "w", "v"⟩, ⟨5, 200, 240, "w", "v"⟩,
         ⟨6, 240, 280, "w", "v"⟩, ⟨7, 280, 320, "w", "v"⟩, ⟨8, 320, 360, "w", "v"⟩,
         ⟨9, 360, 400, "w", "v"⟩]
    ∧ windowGroups 30 tenFragments =
        [[⟨"w", 0, 40⟩], [⟨"w", 40, 40⟩], [⟨"w", 80, 40⟩], [⟨"w", 120, 40⟩],
         [⟨"w", 160, 40⟩], [⟨"w", 200, 40⟩], [⟨"w", 240, 40⟩], [⟨"w", 280, 40⟩],
         [⟨"w", 320, 40⟩], [⟨"w", 360, 40⟩]] := by
  refine ⟨fun sz vid f ts chunks cs ce txts n => ⟨rfl, rfl⟩, ?_, ?_⟩
  · with_unfolding_all decide
  · with_unfolding_all decide

/-- C5: Chunk well-formedness.  With non-negative durations, the agent chunker
is the rendering of the fragment groups: every chunk has
`start_s ≤ end_s`, its `end_s` is the running maximum `groupEnd` of its
constituent fragments' end times, its text is the space-joined concatenation
`groupText` of the stripped texts of its constituent fragments in input order,
and the constituents are exactly non-empty-after-strip fragments of the input
(empty-text fragments never open or extend a chunk). -/
theorem chunk_wellformedness (sz : ℚ) (t : List RawItem) (vid : String)
    (hdur : nonnegDurations t = true) :
    AgentLoop.chunk_transcript sz t vid = renderAll vid 0 (windowGroups sz t)
    ∧ (∀ g ∈ windowGroups sz t, g ≠ [] ∧ ∀ f ∈ g, f ∈ t ∧ strip f.text ≠ "")
    ∧ ∀ ch ∈ AgentLoop.chunk_transcript sz t vid,
        ch.start_s ≤ ch.end_s
        ∧ ∃ g ∈ windowGroups sz t,
            ch.start_s = groupStart g ∧ ch.end_s = groupEnd g ∧ ch.text = groupText g := by
  have hdurP : ∀ f ∈ t, 0 ≤ f.duration := by
    intro f hf
    have := List.all_eq_true.mp hdur f hf
    simpa using this
  have heq := chunk_transcript_eq_renderAll sz t vid
  have hwf := windowGroups_wf sz t
  refine ⟨heq, hwf, ?_⟩
  intro ch hch
  rw [heq] at hch
  rcases mem_renderAll vid (windowGroups sz t) 0 ch hch with ⟨g, hg, hrend⟩
  have hgwf := hwf g hg
  have hdur' : ∀ f ∈ g, 0 ≤ f.duration := fun f hf => hdurP f (hgwf.2 f hf).1
  constructor
  · rw [hrend]
    exact groupStart_le_groupEnd g hgwf.1 hdur'
  · exact ⟨g, hg, by rw [hrend]; exact ⟨rfl, rfl, rfl⟩⟩

/-- Witness for C5 at a concrete transcript. -/
theorem chunk_wellformedness_witness :
    nonnegDurations pizzaFragments = true
    ∧ AgentLoop.chunk_transcript 30 pizzaFragments "v"
        = renderAll "v" 0 (windowGroups 30 pizzaFragments) :=
  ⟨by with_unfolding_all decide,
   (chunk_wellformedness 30 pizzaFragments "v" (by with_unfolding_all decide)).1⟩

/-- C10: Chunker equivalence.  The server chunker and the agent chunker are
renderings of boundary-identical fragment groupings: the server output is its
line-annotated groups rendered with the line formatter, the agent output is
the raw groups rendered as space-joined chunks, both groupings carry the same
(start, duration, stripped text) fragment data in the same groups, and hence
both produce the same number of chunks. -/
theorem chunkers_equivalent (fmt : Nat → ℚ → ℚ → String → String) (sz : ℚ)
    (t : List RawItem) (vid : String) :
    ApiServer.chunk_transcript fmt sz t
      = (serverGroups sz t).map (ApiServer.renderChunkLines fmt)
    ∧ AgentLoop.chunk_transcript sz t vid = renderAll vid 0 (windowGroups sz t)
    ∧ (serverGroups sz t).map (List.map entryData)
        = (windowGroups sz t).map (List.map fragData)
    ∧ (ApiServer.chunk_transcript fmt sz t).length
        = (AgentLoop.chunk_transcript sz t vid).length := by
  have h1 := server_chunk_transcript_eq fmt sz t
  have h2 := chunk_transcript_eq_renderAll sz t vid
  have h3 := serverGroups_data sz t
  refine ⟨h1, h2, h3, ?_⟩
  have hlen : (serverGroups sz t).length = (windowGroups sz t).length := by
    have := congrArg List.length h3
    simpa using this
  rw [h1, h2, List.length_map, hlen, renderAll_length]

/-- Projection fact: `verify_claim` always retains the claim it was given. -/
theorem verify_claim_claim (verify : String → Except String String)
    (c : AgentLoop.ClaimMinimal) (i : Nat) :
    (AgentLoop.verify_claim verify c i).claim = c := by
  unfold AgentLoop.verify_claim
  cases verify c.claim_text <;> rfl

/-- Projection fact: `verify_claim` tags the result with the given chunk id. -/
theorem verify_claim_chunk_id (verify : String → Except String String)
    (c : AgentLoop.ClaimMinimal) (i : Nat) :
    (AgentLoop.verify_claim verify c i).chunk_id = i := by
  unfold AgentLoop.verify_claim
  cases verify c.claim_text <;> rfl

/-- C2: Extraction failure isolation.  If the extractor raises for a chunk,
that chunk contributes zero items; the batch still produces, for every chunk,
the verified items of that chunk, so every item produced by the other chunks
appears in the final result. -/
theorem extraction_failure_isolated
    (aextract : String → String → Except String (List AgentLoop.ClaimMinimal))
    (verify : String → Except String String) (sz : ℚ) (t : List RawItem)
    (vid : String) (e : String) (ch : AgentLoop.TranscriptChunk)
    (_hch : ch ∈ AgentLoop.chunk_transcript sz t vid)
    (herr : aextract ch.video_id ch.text = Except.error e) :
    AgentLoop.extract_claims_from_chunk aextract ch = []
    ∧ AgentLoop.process_transcript aextract verify sz t vid
        = (AgentLoop.chunk_transcript sz t vid).flatMap
            (fun c => (AgentLoop.extract_claims_from_chunk aextract c).map
              fun cl => AgentLoop.verify_claim verify cl c.chunk_id)
    ∧ ∀ c ∈ AgentLoop.chunk_transcript sz t vid,
        ∀ cl ∈ AgentLoop.extract_claims_from_chunk aextract c,
          AgentLoop.verify_claim verify cl c.chunk_id
            ∈ AgentLoop.process_transcript aextract verify sz t vid := by
  have hflat : AgentLoop.process_transcript aextract verify sz t vid
      = (AgentLoop.chunk_transcript sz t vid).flatMap
          (fun c => (AgentLoop.extract_claims_from_chunk aextract c).map
            fun cl => AgentLoop.verify_claim verify cl c.chunk_id) := by
    rw [process_eq_map_all_claims]
    unfold AgentLoop.all_claims
    rw [List.map_flatMap]
    simp only [List.map_map]
    rfl
  refine ⟨?_, hflat, ?_⟩
  · unfold AgentLoop.extract_claims_from_chunk
    rw [herr]
  · intro c hc cl hcl
    rw [hflat]
    refine List.mem_flatMap.mpr ⟨c, hc, ?_⟩
    exact List.mem_map.mpr ⟨cl, hcl, rfl⟩

/-- Witness for C2 at the scenario of five chunks whose third extraction
throws: chunk 2 contributes nothing while chunks 0, 1, 3, 4 each contribute
their item. -/
theorem extraction_failure_isolated_witness :
    (⟨2, 80, 120, "t2", "v"⟩ : AgentLoop.TranscriptChunk)
        ∈ AgentLoop.chunk_transcript 30 fiveFragments "v"
    ∧ extractorFailT2 "v" "t2" = Except.error "boom"
    ∧ AgentLoop.extract_claims_from_chunk extractorFailT2 ⟨2, 80, 120, "t2", "v"⟩ = []
    ∧ AgentLoop.process_transcript extractorFailT2 verifierOk 30 fiveFragments "v"
        = [⟨sampleClaim "t0", "verdict for t0", 0, 0⟩,
           ⟨sampleClaim "t1", "verdict for t1", 0, 1⟩,
           ⟨sampleClaim "t3", "verdict for t3", 0, 3⟩,
           ⟨sampleClaim "t4", "verdict for t4", 0, 4⟩] :=
  ⟨by with_unfolding_all decide, rfl,
   (extraction_failure_isolated extractorFailT2 verifierOk 30 fiveFragments "v"
      "boom" ⟨2, 80, 120, "t2", "v"⟩ (by with_unfolding_all decide) rfl).1,
   by with_unfolding_all decide⟩

/-- C3: Verification failure retention.  `verify_claim` is total: a verifier
exception never propagates, the claim is always retained, and a failing
verification yields the failure-marker verdict `"Verification failed: " ++ e`
while a successful one yields the verifier's result.  Consequently `process`
drops no item, and on the scenario of four items whose odd-indexed ones throw,
all four items are returned, two with failure markers and two with normal
verdicts. -/
theorem verification_failure_retention
    (verify : String → Except String String) (claim : AgentLoop.ClaimMinimal)
    (cid : Nat)
    (aextract : String → String → Except String (List AgentLoop.ClaimMinimal))
    (sz : ℚ) (t : List RawItem) (vid : String) :
    (AgentLoop.verify_claim verify claim cid =
      match verify claim.claim_text with
      | .ok r => ⟨claim, r, 0, cid⟩
      | .error e => ⟨claim, "Verification failed: " ++ e, 0, cid⟩)
    ∧ (AgentLoop.process_transcript aextract verify sz t vid).map (fun v => v.claim)
        = (AgentLoop.all_claims aextract sz t vid).map (fun p => p.1)
    ∧ AgentLoop.process_transcript extractorFour verifierOddFails 30 pizzaFragments "v"
        = [⟨sampleClaim "c0", "verdict for c0", 0, 0⟩,
           ⟨sampleClaim "c1", "Verification failed: cannot check c1", 0, 0⟩,
           ⟨sampleClaim "c2", "verdict for c2", 0, 0⟩,
           ⟨sampleClaim "c3", "Verification failed: cannot check c3", 0, 0⟩] := by
  refine ⟨rfl, ?_, by with_unfolding_all decide⟩
  rw [process_eq_map_all_claims, List.map_map]
  simp [Function.comp, verify_claim_claim]

/-- C4 counterexample: the value returned by `process_transcript` does not
expose `per_chunk_counts`, `extraction_failures` or `verification_failures` —
a run in which the extraction of chunk 1 throws returns a value identical to a
clean run whose extractor merely finds nothing in chunk 1, so a caller cannot
observe the degradation from the returned value alone. -/
theorem batch_result_shape_cex :
    AgentLoop.process_transcript extractorFailB verifierOk 30 twoFragments "v"
      = AgentLoop.process_transcript extractorEmptyB verifierOk 30 twoFragments "v"
    ∧ AgentLoop.process_transcript extractorFailB verifierOk 30 twoFragments "v"
      = [⟨sampleClaim "a", "verdict for a", 0, 0⟩] := by
  constructor
  · with_unfolding_all decide
  · with_unfolding_all decide

/-- C4 amended: a successful call to `process_transcript` returns only the
flat list of verified items, one per extracted claim in work-list order; the
per-chunk counts and the failure counts are computed and printed internally
but are not part of the returned value. -/
theorem batch_result_is_flat_list
    (aextract : String → String → Except String (List AgentLoop.ClaimMinimal))
    (verify : String → Except String String) (sz : ℚ) (t : List RawItem)
    (vid : String) :
    AgentLoop.process_transcript aextract verify sz t vid
      = (AgentLoop.all_claims aextract sz t vid).map
          fun p => AgentLoop.verify_claim verify p.1 p.2 :=
  process_eq_map_all_claims aextract verify sz t vid

/-- C6: Sentinel timing backfill.  When extraction succeeds, every produced
claim passes through `backfill_timing`: a claim whose `start_s` and `end_s`
are both the sentinel 0 receives the owning chunk's bounds, and any claim
with non-sentinel timing is kept unchanged. -/
theorem sentinel_timing_backfill
    (aextract : String → String → Except String (List AgentLoop.ClaimMinimal))
    (chunk : AgentLoop.TranscriptChunk) (claims : List AgentLoop.ClaimMinimal)
    (hok : aextract chunk.video_id chunk.text = Except.ok claims) :
    AgentLoop.extract_claims_from_chunk aextract chunk
        = claims.map (AgentLoop.backfill_timing chunk)
    ∧ ∀ c : AgentLoop.ClaimMinimal,
        (c.start_s = 0 ∧ c.end_s = 0 →
          AgentLoop.backfill_timing chunk c
            = { c with start_s := chunk.start_s, end_s := chunk.end_s })
        ∧ (¬(c.start_s = 0 ∧ c.end_s = 0) →
          AgentLoop.backfill_timing chunk c = c) := by
  refine ⟨?_, ?_⟩
  · unfold AgentLoop.extract_claims_from_chunk
    rw [hok]
  · intro c
    constructor
    · intro h
      unfold AgentLoop.backfill_timing
      rw [if_pos h]
    · intro h
      unfold AgentLoop.backfill_timing
      rw [if_neg h]

/-- Witness for C6 at a chunk spanning `[3, 13]`: the sentinel-timed claim is
rewritten to the chunk's bounds and the normally-timed claim is untouched. -/
theorem sentinel_timing_backfill_witness :
    extractorMixed "v" "some chunk text" = Except.ok [sentinelClaim, sampleClaim "normal"]
    ∧ AgentLoop.extract_claims_from_chunk extractorMixed ⟨0, 3, 13, "some chunk text", "v"⟩
        = [sentinelClaim, sampleClaim "normal"].map
            (AgentLoop.backfill_timing ⟨0, 3, 13, "some chunk text", "v"⟩)
    ∧ AgentLoop.backfill_timing ⟨0, 3, 13, "some chunk text", "v"⟩ sentinelClaim
        = { sentinelClaim with start_s := 3, end_s := 13 }
    ∧ AgentLoop.backfill_timing ⟨0, 3, 13, "some chunk text", "v"⟩ (sampleClaim "normal")
        = sampleClaim "normal" :=
  ⟨rfl,
   (sentinel_timing_backfill extractorMixed ⟨0, 3, 13, "some chunk text", "v"⟩
      [sentinelClaim, sampleClaim "normal"] rfl).1,
   ((sentinel_timing_backfill extractorMixed ⟨0, 3, 13, "some chunk text", "v"⟩
      [sentinelClaim, sampleClaim "normal"] rfl).2 sentinelClaim).1
      (by with_unfolding_all decide),
   ((sentinel_timing_backfill extractorMixed ⟨0, 3, 13, "some chunk text", "v"⟩
      [sentinelClaim, sampleClaim "normal"] rfl).2 (sampleClaim "normal")).2
      (by with_unfolding_all decide)⟩

/-- C7 counterexample: the constructor accepts a non-positive chunk span and
non-positive concurrency bounds without any error, and the pipeline still
runs to completion with such a span and produces a (non-empty) result — no
fatal configuration error is raised before scheduling. -/
theorem config_validation_cex :
    AgentLoop.init (some "sk-test") none (-1) 0 (-7)
        = Except.ok ⟨"sk-test", -1, 0, -7⟩
    ∧ AgentLoop.process_transcript extractorFour verifierOk (-1) pizzaFragments "v"
        ≠ [] := by
  constructor
  · rfl
  · with_unfolding_all decide

/-- C7 amended: the constructor validates only the API key — it fails exactly
when neither the argument nor the environment supplies a non-empty key, and
its success is independent of the chunk span and the two concurrency bounds,
which are stored unexamined (non-positive values included). -/
theorem config_validation_amended (key env : Option String) (sz : ℚ)
    (ext ver : Int) :
    (AgentLoop.init key env sz ext ver
      = if AgentLoop.resolveKey key env = "" then
          Except.error "ANTHROPIC_API_KEY must be provided or set in environment"
        else Except.ok ⟨AgentLoop.resolveKey key env, sz, ext, ver⟩)
    ∧ ((∃ cfg, AgentLoop.init key env sz ext ver = Except.ok cfg)
        ↔ (∃ cfg, AgentLoop.init key env 30 5 10 = Except.ok cfg)) := by
  refine ⟨rfl, ?_⟩
  by_cases h : AgentLoop.resolveKey key env = "" <;> simp [AgentLoop.init, h]

/-- C8: Zero-item short-circuit.  When extraction yields zero items in total,
`process_transcript` returns the empty result for every verifier — the result
does not depend on the verifier at all, so no verification work is needed —
and in particular the empty fragment stream yields zero chunks and zero
items. -/
theorem zero_items_short_circuit
    (aextract : String → String → Except String (List AgentLoop.ClaimMinimal))
    (sz : ℚ) (t : List RawItem) (vid : String)
    (h : AgentLoop.all_claims aextract sz t vid = []) :
    (∀ verify, AgentLoop.process_transcript aextract verify sz t vid = [])
    ∧ (∀ v₁ v₂, AgentLoop.process_transcript aextract v₁ sz t vid
        = AgentLoop.process_transcript aextract v₂ sz t vid)
    ∧ AgentLoop.chunk_transcript sz ([] : List RawItem) vid = []
    ∧ AgentLoop.all_claims aextract sz ([] : List RawItem) vid = [] := by
  have hz : ∀ verify, AgentLoop.process_transcript aextract verify sz t vid = [] := by
    intro verify
    rw [process_eq_map_all_claims, h]
    rfl
  exact ⟨hz, fun v₁ v₂ => (hz v₁).trans (hz v₂).symm, rfl, rfl⟩

/-- Witness for C8: an extractor that finds nothing makes `process` return
the empty list. -/
theorem zero_items_short_circuit_witness :
    AgentLoop.all_claims extractorNone 30 pizzaFragments "v" = []
    ∧ AgentLoop.process_transcript extractorNone verifierOk 30 pizzaFragments "v" = [] :=
  ⟨by with_unfolding_all decide,
   (zero_items_short_circuit extractorNone 30 pizzaFragments "v"
      (by with_unfolding_all decide)).1 verifierOk⟩

/-- C9: Index-stable result ordering.  Under any completion schedule covering
every submitted index, the gather model reassembles the verification results
in submission order; the final result list is exactly the work-list mapped in
submission order (each verified item sits at its work item's position), and
it is ordered by originating chunk id (within a chunk, the work-list order is
the extractor's production order). -/
theorem index_stable_ordering
    (aextract : String → String → Except String (List AgentLoop.ClaimMinimal))
    (verify : String → Except String String) (sz : ℚ) (t : List RawItem)
    (vid : String) (sched : List Nat)
    (hcov : covers sched (AgentLoop.all_claims aextract sz t vid).length = true) :
    gatherAssemble ((AgentLoop.all_claims aextract sz t vid).map
        fun p => AgentLoop.verify_claim verify p.1 p.2) sched
      = ((AgentLoop.all_claims aextract sz t vid).map
          fun p => AgentLoop.verify_claim verify p.1 p.2).map some
    ∧ AgentLoop.process_transcript aextract verify sz t vid
        = (AgentLoop.all_claims aextract sz t vid).map
            (fun p => AgentLoop.verify_claim verify p.1 p.2)
    ∧ (AgentLoop.process_transcript aextract verify sz t vid).Pairwise
        fun a b => a.chunk_id ≤ b.chunk_id := by
  have hcov' : ∀ i, i < ((AgentLoop.all_claims aextract sz t vid).map
      fun p => AgentLoop.verify_claim verify p.1 p.2).length → i ∈ sched := by
    intro i hi
    rw [List.length_map] at hi
    have hc := List.all_eq_true.mp hcov i (List.mem_range.mpr hi)
    simpa using hc
  refine ⟨gatherAssemble_eq _ sched hcov',
    process_eq_map_all_claims aextract verify sz t vid, ?_⟩
  rw [process_eq_map_all_claims]
  refine (List.pairwise_map).mpr ?_
  refine (all_claims_pairwise aextract sz t vid).imp ?_
  intro p q h
  rw [verify_claim_chunk_id, verify_claim_chunk_id]
  exact h

/-- Witness for C9: four work items reassembled from the completion order
2, 0, 3, 1 come out in submission order. -/
theorem index_stable_ordering_witness :
    covers [2, 0, 3, 1] (AgentLoop.all_claims extractorFour 30 pizzaFragments "v").length
        = true
    ∧ gatherAssemble ((AgentLoop.all_claims extractorFour 30 pizzaFragments "v").map
          fun p => AgentLoop.verify_claim verifierOk p.1 p.2) [2, 0, 3, 1]
        = ((AgentLoop.all_claims extractorFour 30 pizzaFragments "v").map
            fun p => AgentLoop.verify_claim verifierOk p.1 p.2).map some :=
  ⟨by with_unfolding_all decide,
   (index_stable_ordering extractorFour verifierOk 30 pizzaFragments "v" [2, 0, 3, 1]
      (by with_unfolding_all decide)).1⟩
